import Mathlib

/-!
Shallow embedding of the cache/metrics core of the Student Grade Analytics
service (src/main.py): the `SystemMetrics` aggregator (main.py lines 73-113)
and the `LRUCache` (main.py lines 118-146), together with the
cache-invalidation call site in `add_grade` (main.py line 497) and the
truthiness test on a cached value in `get_student` (main.py lines 413-416).

Python dictionaries (`OrderedDict`) are modelled as association lists in
insertion order: the head of the list is the least-recently-used entry and the
last element is the most-recently-used one, matching `OrderedDict` where
`popitem(last=False)` removes the head and assignment appends at the end.
Python runtime values are modelled by the inductive `PyVal`, whose `vNone`
constructor stands for Python `None`.  Machine floats (response-time samples,
hit rates) are modelled as rationals.  Code that can raise (`put` calls
`popitem` on a possibly empty dict) returns `Except`.
-/

namespace GradeAnalytics

/-- A Python runtime value as stored in / returned by the cache.
`vNone` is Python `None`, the value `LRUCache.get` returns on a miss
(main.py line 133). -/
inductive PyVal where
  | vNone : PyVal
  | vInt (n : Int) : PyVal
  | vStr (s : String) : PyVal
  | vBool (b : Bool) : PyVal
  deriving DecidableEq, Repr

/-- Python truthiness of a `PyVal`, as used by `if cached_student:` in
`get_student` (main.py line 415): `None`, `0`, the empty string and `False`
are falsy. -/
def PyVal.truthy : PyVal → Bool
  | .vNone => false
  | .vInt n => decide (n ≠ 0)
  | .vStr s => decide (s ≠ "")
  | .vBool b => b

/-- The `deque(maxlen=100)` bound on `response_times` (main.py line 79). -/
def RESPONSE_WINDOW : Nat := 100

/-- Structure `SystemMetrics` (main.py lines 73-82): process-wide counters plus the
bounded deque of recent response-time samples.  The `threading.RLock` field
has no observable single-threaded semantics and is not modelled. -/
structure SystemMetrics where
  request_count : Nat
  db_query_count : Nat
  cache_hits : Nat
  cache_misses : Nat
  response_times : List ℚ
  deriving DecidableEq, Repr

/-- Constructor `SystemMetrics.__init__` (main.py lines 74-82): all counters zero, empty
sample deque. -/
def SystemMetrics.start : SystemMetrics :=
  { request_count := 0, db_query_count := 0, cache_hits := 0,
    cache_misses := 0, response_times := [] }

/-- Method `record_request` (main.py lines 84-87): increment the request counter and
append the sample; `deque(maxlen=100)` retains only the most recent
`RESPONSE_WINDOW` appends, dropping from the front. -/
def SystemMetrics.record_request (m : SystemMetrics) (t : ℚ) : SystemMetrics :=
  let rts := m.response_times ++ [t]
  { m with request_count := m.request_count + 1,
           response_times := rts.drop (rts.length - RESPONSE_WINDOW) }

/-- Method `record_db_query` (main.py lines 89-91). -/
def SystemMetrics.record_db_query (m : SystemMetrics) : SystemMetrics :=
  { m with db_query_count := m.db_query_count + 1 }

/-- Method `record_cache_hit` (main.py lines 93-95). -/
def SystemMetrics.record_cache_hit (m : SystemMetrics) : SystemMetrics :=
  { m with cache_hits := m.cache_hits + 1 }

/-- Method `record_cache_miss` (main.py lines 97-99). -/
def SystemMetrics.record_cache_miss (m : SystemMetrics) : SystemMetrics :=
  { m with cache_misses := m.cache_misses + 1 }

/-- Method `get_cache_hit_rate` (main.py lines 101-104):
`hits / (hits + misses)` when any access was recorded, else `0.0`. -/
def SystemMetrics.get_cache_hit_rate (m : SystemMetrics) : ℚ :=
  let total := m.cache_hits + m.cache_misses
  if total > 0 then (m.cache_hits : ℚ) / (total : ℚ) else 0

/-- Method `get_avg_response_time` (main.py lines 106-108): `statistics.mean` of the
retained samples, `0.0` when the deque is empty. -/
def SystemMetrics.get_avg_response_time (m : SystemMetrics) : ℚ :=
  if m.response_times.isEmpty then 0
  else m.response_times.sum / (m.response_times.length : ℚ)

/-- Method `get_requests_per_minute` (main.py lines 110-113): the number of retained
response-time samples. -/
def SystemMetrics.get_requests_per_minute (m : SystemMetrics) : Nat :=
  m.response_times.length

/-- Dict lookup `d[k]` in an ordered dict represented as an association list
(first matching key wins; dict keys are unique). -/
def odLookup {K : Type} [DecidableEq K] : List (K × PyVal) → K → Option PyVal
  | [], _ => none
  | (k', v) :: rest, k => if k = k' then some v else odLookup rest k

/-- Dict removal `d.pop(k)` / `d.pop(k, default)` on the association list: remove the
entry with key `k` (the first occurrence) if present, keep the rest in
order. -/
def odErase {K : Type} [DecidableEq K] : List (K × PyVal) → K → List (K × PyVal)
  | [], _ => []
  | (k', v) :: rest, k => if k = k' then rest else (k', v) :: odErase rest k

/-- Class `LRUCache` (main.py lines 118-122): configured capacity (a plain Python
int, possibly non-positive — `__init__` performs no validation) and the
`OrderedDict` of entries, least-recently-used first.  The `threading.RLock`
field is not modelled. -/
structure LRUCache (K : Type) where
  capacity : Int
  cache : List (K × PyVal)
  deriving DecidableEq, Repr

/-- Constructor `LRUCache.__init__` (main.py lines 119-122): stores the capacity as given
and starts with an empty dict.  There is no capacity check. -/
def LRUCache.mkCache (K : Type) (capacity : Int) : LRUCache K :=
  { capacity := capacity, cache := [] }

/-- Method `LRUCache.get` (main.py lines 124-133): on a hit, pop the entry and
re-append it (promote to most-recently-used), record a cache hit on the
shared metrics, and return the value; on a miss record a cache miss and
return `None`.  Returns (result, new cache, new metrics). -/
def LRUCache.get {K : Type} [DecidableEq K] (c : LRUCache K)
    (m : SystemMetrics) (k : K) : PyVal × LRUCache K × SystemMetrics :=
  match odLookup c.cache k with
  | some v =>
      (v, { c with cache := odErase c.cache k ++ [(k, v)] }, m.record_cache_hit)
  | none => (PyVal.vNone, c, m.record_cache_miss)

/-- Method `LRUCache.put` (main.py lines 135-142): if the key exists, pop and
re-insert it with the new value (promote, no eviction); otherwise, if
`len(self.cache) >= self.capacity`, first evict the least-recently-used entry
with `popitem(last=False)` — which raises `KeyError` when the dict is empty,
as happens on every fresh-key `put` at capacity ≤ 0 — then insert at the
most-recently-used end.  Metrics are never touched. -/
def LRUCache.put {K : Type} [DecidableEq K] (c : LRUCache K) (k : K)
    (v : PyVal) : Except String (LRUCache K) :=
  if (odLookup c.cache k).isSome then
    .ok { c with cache := odErase c.cache k ++ [(k, v)] }
  else if c.capacity ≤ (c.cache.length : Int) then
    match c.cache with
    | [] => .error "KeyError: dictionary is empty"
    | _ :: rest => .ok { c with cache := rest ++ [(k, v)] }
  else
    .ok { c with cache := c.cache ++ [(k, v)] }

/-- Method `LRUCache.size` (main.py lines 144-146). -/
def LRUCache.size {K : Type} (c : LRUCache K) : Nat := c.cache.length

/-- Cache invalidation as performed by `add_grade` (main.py line 497):
`student_cache.cache.pop(key, None)` — remove the entry if present, no-op
otherwise; the metrics aggregator is not consulted. -/
def LRUCache.delete {K : Type} [DecidableEq K] (c : LRUCache K) (k : K) :
    LRUCache K :=
  { c with cache := odErase c.cache k }

/-- The cache-path test of `get_student` (main.py lines 413-416):
`cached_student = student_cache.get(cache_key)` followed by
`if cached_student:` — the cached result is served only when the value
returned by `get` is truthy. -/
def getStudentServesFromCache {K : Type} [DecidableEq K] (c : LRUCache K)
    (m : SystemMetrics) (k : K) : Bool :=
  ((c.get m k).1).truthy

/-- One operation against the shared cache + metrics pair, as issued by the
route handlers. -/
inductive Op (K : Type) where
  | put (k : K) (v : PyVal) : Op K
  | get (k : K) : Op K
  | del (k : K) : Op K
  deriving DecidableEq, Repr

/-- Run one operation on the shared state.  A `put` that raises `KeyError`
leaves the dict unchanged: `popitem` raises before anything is inserted. -/
def runOp {K : Type} [DecidableEq K] (s : LRUCache K × SystemMetrics)
    (op : Op K) : LRUCache K × SystemMetrics :=
  match op with
  | .put k v =>
      match s.1.put k v with
      | .ok c' => (c', s.2)
      | .error _ => s
  | .get k =>
      let r := s.1.get s.2 k
      (r.2.1, r.2.2)
  | .del k => (s.1.delete k, s.2)

/-- Run a sequence of operations in order. -/
def runOps {K : Type} [DecidableEq K] (s : LRUCache K × SystemMetrics)
    (ops : List (Op K)) : LRUCache K × SystemMetrics :=
  ops.foldl runOp s

/-- Whether an operation is a `get` (the only operation that reports to the
aggregator). -/
def Op.isGet {K : Type} : Op K → Bool
  | .get _ => true
  | _ => false

/-- One hit-or-miss event recorded on the aggregator. -/
inductive MEvent where
  | hit : MEvent
  | miss : MEvent
  deriving DecidableEq, Repr

/-- Apply a sequence of `record_cache_hit` / `record_cache_miss` calls. -/
def applyMEvents (m : SystemMetrics) (es : List MEvent) : SystemMetrics :=
  es.foldl (fun m e =>
    match e with
    | .hit => m.record_cache_hit
    | .miss => m.record_cache_miss) m

/-! ### Basic lemmas about the ordered-dict operations -/

theorem odLookup_eq_none_iff {K : Type} [DecidableEq K]
    (l : List (K × PyVal)) (k : K) :
    odLookup l k = none ↔ k ∉ l.map Prod.fst := by
  induction l with
  | nil => simp [odLookup]
  | cons p rest ih =>
    obtain ⟨a, v⟩ := p
    by_cases h : k = a <;> simp [odLookup, h, ih]

theorem odLookup_isSome_iff {K : Type} [DecidableEq K]
    (l : List (K × PyVal)) (k : K) :
    (odLookup l k).isSome ↔ k ∈ l.map Prod.fst := by
  rw [Option.isSome_iff_ne_none, ne_eq, odLookup_eq_none_iff, not_not]

theorem odErase_sublist {K : Type} [DecidableEq K]
    (l : List (K × PyVal)) (k : K) : (odErase l k).Sublist l := by
  induction l with
  | nil => simp [odErase]
  | cons p rest ih =>
    obtain ⟨a, v⟩ := p
    by_cases h : k = a
    · simp only [odErase, if_pos h]
      exact List.sublist_cons_self (a, v) rest
    · simp only [odErase, if_neg h]
      exact ih.cons₂ (a, v)

theorem odErase_of_not_mem {K : Type} [DecidableEq K]
    {l : List (K × PyVal)} {k : K} (h : k ∉ l.map Prod.fst) :
    odErase l k = l := by
  induction l with
  | nil => rfl
  | cons p rest ih =>
    obtain ⟨a, v⟩ := p
    simp only [List.map_cons, List.mem_cons, not_or] at h
    simp [odErase, h.1, ih h.2]

theorem length_odErase_of_mem {K : Type} [DecidableEq K]
    {l : List (K × PyVal)} {k : K} (h : k ∈ l.map Prod.fst) :
    (odErase l k).length + 1 = l.length := by
  induction l with
  | nil => simp at h
  | cons p rest ih =>
    obtain ⟨a, v⟩ := p
    by_cases hk : k = a
    · simp [odErase, hk]
    · simp only [List.map_cons, List.mem_cons, hk, false_or] at h
      simp [odErase, hk, ih h]

theorem not_mem_keys_odErase {K : Type} [DecidableEq K]
    {l : List (K × PyVal)} {k : K} (hnd : (l.map Prod.fst).Nodup) :
    k ∉ (odErase l k).map Prod.fst := by
  induction l with
  | nil => simp [odErase]
  | cons p rest ih =>
    obtain ⟨a, v⟩ := p
    simp only [List.map_cons, List.nodup_cons] at hnd
    by_cases hk : k = a
    · simpa [odErase, hk] using fun hmem => hnd.1 (hk ▸ hmem)
    · simp [odErase, hk, ih hnd.2]

theorem nodup_keys_odErase {K : Type} [DecidableEq K]
    {l : List (K × PyVal)} (k : K) (hnd : (l.map Prod.fst).Nodup) :
    ((odErase l k).map Prod.fst).Nodup :=
  hnd.sublist ((odErase_sublist l k).map Prod.fst)

theorem odLookup_odErase_ne {K : Type} [DecidableEq K]
    (l : List (K × PyVal)) {k k' : K} (h : k' ≠ k) :
    odLookup (odErase l k) k' = odLookup l k' := by
  induction l with
  | nil => rfl
  | cons p rest ih =>
    obtain ⟨a, v⟩ := p
    by_cases hk : k = a
    · subst hk
      simp [odErase, odLookup, h]
    · by_cases hk' : k' = a <;> simp [odErase, odLookup, hk, hk', ih]

theorem odLookup_append_of_none {K : Type} [DecidableEq K]
    {l₁ : List (K × PyVal)} (l₂ : List (K × PyVal)) {k : K}
    (h : odLookup l₁ k = none) :
    odLookup (l₁ ++ l₂) k = odLookup l₂ k := by
  induction l₁ with
  | nil => rfl
  | cons p rest ih =>
    obtain ⟨a, v⟩ := p
    by_cases hk : k = a
    · simp [odLookup, hk] at h
    · simp only [odLookup, hk, if_false] at h
      simp [odLookup, hk, ih h]

theorem odLookup_append_of_some {K : Type} [DecidableEq K]
    {l₁ : List (K × PyVal)} (l₂ : List (K × PyVal)) {k : K} {v : PyVal}
    (h : odLookup l₁ k = some v) :
    odLookup (l₁ ++ l₂) k = some v := by
  induction l₁ with
  | nil => simp [odLookup] at h
  | cons p rest ih =>
    obtain ⟨a, w⟩ := p
    by_cases hk : k = a
    · simp only [odLookup, hk, if_true] at h
      simp [odLookup, hk, h]
    · simp only [odLookup, hk, if_false] at h
      simp [odLookup, hk, ih h]

theorem odLookup_concat_self {K : Type} [DecidableEq K]
    {l : List (K × PyVal)} {k : K} (v : PyVal) (h : odLookup l k = none) :
    odLookup (l ++ [(k, v)]) k = some v := by
  rw [odLookup_append_of_none _ h]
  simp [odLookup]

theorem odLookup_concat_ne {K : Type} [DecidableEq K]
    (l : List (K × PyVal)) {k k' : K} (v : PyVal) (h : k' ≠ k) :
    odLookup (l ++ [(k, v)]) k' = odLookup l k' := by
  cases hl : odLookup l k' with
  | some w => exact odLookup_append_of_some _ hl
  | none => rw [odLookup_append_of_none _ hl]; simp [odLookup, h]

theorem odLookup_map_pair_of_mem {K : Type} [DecidableEq K]
    (f : K → PyVal) {ks : List K} {k : K} (h : k ∈ ks) :
    odLookup (ks.map fun a => (a, f a)) k = some (f k) := by
  induction ks with
  | nil => simp at h
  | cons a rest ih =>
    by_cases hk : k = a
    · subst hk; simp [odLookup]
    · simp only [List.mem_cons, hk, false_or] at h
      simp [odLookup, hk, ih h]

theorem odLookup_map_pair_of_not_mem {K : Type} [DecidableEq K]
    (f : K → PyVal) {ks : List K} {k : K} (h : k ∉ ks) :
    odLookup (ks.map fun a => (a, f a)) k = none := by
  rw [odLookup_eq_none_iff]
  simpa using h

/-! ### Lemmas about operation sequences -/

theorem runOps_append {K : Type} [DecidableEq K]
    (s : LRUCache K × SystemMetrics) (l₁ l₂ : List (Op K)) :
    runOps s (l₁ ++ l₂) = runOps (runOps s l₁) l₂ := by
  simp [runOps]

theorem runOps_cons {K : Type} [DecidableEq K]
    (s : LRUCache K × SystemMetrics) (op : Op K) (ops : List (Op K)) :
    runOps s (op :: ops) = runOps (runOp s op) ops := rfl

/-- Filling a cache with fresh, pairwise distinct keys that still fit within
the capacity just appends the corresponding entries in order; metrics are
untouched (`put` never reports to the aggregator). -/
theorem runOps_put_fresh {K : Type} [DecidableEq K] (f : K → PyVal)
    (ks : List K) :
    ∀ (es : List (K × PyVal)) (cap : Int) (m : SystemMetrics),
      ks.Nodup → (∀ k ∈ ks, odLookup es k = none) →
      (es.length : Int) + (ks.length : Int) ≤ cap →
      runOps ({ capacity := cap, cache := es }, m)
          (ks.map fun k => Op.put k (f k)) =
        ({ capacity := cap, cache := es ++ ks.map fun k => (k, f k) }, m) := by
  induction ks with
  | nil =>
    intro es cap m _ _ _
    simp [runOps]
  | cons k rest ih =>
    intro es cap m hnd hfresh hlen
    have hnd' := List.nodup_cons.mp hnd
    have hes : odLookup es k = none := hfresh k (List.mem_cons_self k rest)
    have hnotfull : ¬ cap ≤ (es.length : Int) := by
      simp only [List.length_cons, Nat.cast_add, Nat.cast_one] at hlen
      omega
    have hput : LRUCache.put { capacity := cap, cache := es } k (f k) =
        Except.ok { capacity := cap, cache := es ++ [(k, f k)] } := by
      simp [LRUCache.put, hes, hnotfull]
    have hstep : runOp ({ capacity := cap, cache := es }, m) (Op.put k (f k)) =
        ({ capacity := cap, cache := es ++ [(k, f k)] }, m) := by
      simp [runOp, hput]
    rw [List.map_cons, runOps_cons, hstep,
      ih (es ++ [(k, f k)]) cap m hnd'.2 ?fresh ?len]
    · simp
    case fresh =>
      intro k' hk'
      have hne : k' ≠ k := fun h => hnd'.1 (h ▸ hk')
      rw [odLookup_concat_ne _ _ hne]
      exact hfresh k' (List.mem_cons_of_mem _ hk')
    case len =>
      simp only [List.length_append, List.length_cons, List.length_nil] at hlen ⊢
      push_cast at hlen ⊢
      omega

/-- A single operation never grows the entry count beyond a positive
capacity, and never changes the configured capacity. -/
theorem runOp_size_le {K : Type} [DecidableEq K]
    (s : LRUCache K × SystemMetrics) (op : Op K)
    (h : (s.1.cache.length : Int) ≤ s.1.capacity) :
    (runOp s op).1.capacity = s.1.capacity ∧
    ((runOp s op).1.cache.length : Int) ≤ s.1.capacity := by
  cases op with
  | put k v =>
    by_cases hsome : (odLookup s.1.cache k).isSome
    · have hmem : k ∈ s.1.cache.map Prod.fst := (odLookup_isSome_iff _ _).mp hsome
      have hlen := length_odErase_of_mem hmem
      have hrun : runOp s (Op.put k v) =
          ({ s.1 with cache := odErase s.1.cache k ++ [(k, v)] }, s.2) := by
        simp [runOp, LRUCache.put, hsome]
      rw [hrun]
      refine ⟨rfl, ?_⟩
      simp only [List.length_append, List.length_cons, List.length_nil]
      omega
    · by_cases hfull : s.1.capacity ≤ (s.1.cache.length : Int)
      · cases hc : s.1.cache with
        | nil =>
          have hfull0 : s.1.capacity ≤ 0 := by
            rw [hc] at hfull
            simpa using hfull
          have hrun : runOp s (Op.put k v) = s := by
            simp [runOp, LRUCache.put, odLookup, hc, hfull0]
          rw [hrun]
          exact ⟨rfl, h⟩
        | cons p rest =>
          rw [hc] at hsome
          have hfull' : s.1.capacity ≤ (rest.length : Int) + 1 := by
            rw [hc] at hfull
            simpa using hfull
          have hrun : runOp s (Op.put k v) =
              ({ s.1 with cache := rest ++ [(k, v)] }, s.2) := by
            simp [runOp, LRUCache.put, hc, hsome, hfull']
          rw [hrun]
          refine ⟨rfl, ?_⟩
          have hl : s.1.cache.length = rest.length + 1 := by
            rw [hc, List.length_cons]
          simp only [List.length_append, List.length_cons, List.length_nil]
          omega
      · have hrun : runOp s (Op.put k v) =
            ({ s.1 with cache := s.1.cache ++ [(k, v)] }, s.2) := by
          simp [runOp, LRUCache.put, hsome, hfull]
        rw [hrun]
        refine ⟨rfl, ?_⟩
        simp only [List.length_append, List.length_cons, List.length_nil]
        omega
  | get k =>
    cases hl : odLookup s.1.cache k with
    | none =>
      have hrun : runOp s (Op.get k) = (s.1, s.2.record_cache_miss) := by
        simp [runOp, LRUCache.get, hl]
      rw [hrun]
      exact ⟨rfl, h⟩
    | some v =>
      have hmem : k ∈ s.1.cache.map Prod.fst :=
        (odLookup_isSome_iff _ _).mp (by simp [hl])
      have hlen := length_odErase_of_mem hmem
      have hrun : runOp s (Op.get k) =
          ({ s.1 with cache := odErase s.1.cache k ++ [(k, v)] },
            s.2.record_cache_hit) := by
        simp [runOp, LRUCache.get, hl]
      rw [hrun]
      refine ⟨rfl, ?_⟩
      simp only [List.length_append, List.length_cons, List.length_nil]
      omega
  | del k =>
    have hlen := (odErase_sublist s.1.cache k).length_le
    have hrun : runOp s (Op.del k) =
        ({ capacity := s.1.capacity, cache := odErase s.1.cache k }, s.2) := rfl
    rw [hrun]
    refine ⟨rfl, ?_⟩
    show ((odErase s.1.cache k).length : Int) ≤ s.1.capacity
    omega

/-- Iterated version of `runOp_size_le`. -/
theorem runOps_size_le {K : Type} [DecidableEq K] (ops : List (Op K)) :
    ∀ (s : LRUCache K × SystemMetrics),
      (s.1.cache.length : Int) ≤ s.1.capacity →
      (runOps s ops).1.capacity = s.1.capacity ∧
      ((runOps s ops).1.cache.length : Int) ≤ s.1.capacity := by
  induction ops with
  | nil => intro s h; exact ⟨rfl, h⟩
  | cons op ops ih =>
    intro s h
    have hstep := runOp_size_le s op h
    have htail := ih (runOp s op) (hstep.1 ▸ hstep.2)
    rw [runOps_cons]
    exact ⟨htail.1.trans hstep.1, hstep.1 ▸ htail.2⟩

/-- Each `get` bumps exactly one of the two counters; `put` and `delete`
bump neither. -/
theorem runOps_hit_miss_count {K : Type} [DecidableEq K] (ops : List (Op K)) :
    ∀ (s : LRUCache K × SystemMetrics),
      (runOps s ops).2.cache_hits + (runOps s ops).2.cache_misses =
        s.2.cache_hits + s.2.cache_misses + (ops.filter Op.isGet).length := by
  induction ops with
  | nil => intro s; simp [runOps]
  | cons op ops ih =>
    intro s
    have hstep : (runOp s op).2.cache_hits + (runOp s op).2.cache_misses =
        s.2.cache_hits + s.2.cache_misses + (if op.isGet then 1 else 0) := by
      cases op with
      | put k v =>
        cases hput : s.1.put k v <;> simp [runOp, hput, Op.isGet]
      | get k =>
        cases hl : odLookup s.1.cache k with
        | none =>
          simp [runOp, LRUCache.get, hl, SystemMetrics.record_cache_miss,
            Op.isGet]
          omega
        | some v =>
          simp [runOp, LRUCache.get, hl, SystemMetrics.record_cache_hit,
            Op.isGet]
          omega
      | del k => simp [runOp, LRUCache.delete, Op.isGet]
    rw [runOps_cons, ih (runOp s op), hstep, List.filter_cons]
    by_cases hg : op.isGet
    · simp only [hg, if_true, List.length_cons]
      omega
    · simp only [hg, if_false, Bool.false_eq_true]
      omega

/-- Lemma: `record_request` keeps the samples appended so far, truncated to the most
recent `RESPONSE_WINDOW` of them. -/
theorem record_request_response_times (m : SystemMetrics) (t : ℚ) :
    (m.record_request t).response_times =
      (m.response_times ++ [t]).drop
        ((m.response_times ++ [t]).length - RESPONSE_WINDOW) := rfl

/-- After any sequence of `record_request` calls the retained samples are
exactly the most recent `RESPONSE_WINDOW` ones, in insertion order. -/
theorem foldl_record_request_times (ts : List ℚ) :
    (ts.foldl SystemMetrics.record_request SystemMetrics.start).response_times =
      ts.drop (ts.length - RESPONSE_WINDOW) := by
  have hW : RESPONSE_WINDOW = 100 := rfl
  induction ts using List.reverseRecOn with
  | nil => rfl
  | append_singleton xs t ih =>
    rw [List.foldl_append, List.foldl_cons, List.foldl_nil,
      record_request_response_times, ih]
    by_cases hn : xs.length < RESPONSE_WINDOW
    · have hd : xs.length - RESPONSE_WINDOW = 0 := by omega
      have hlen : (xs.drop 0 ++ [t]).length = xs.length + 1 := by simp
      have hd2 : (xs.drop 0 ++ [t]).length - RESPONSE_WINDOW = 0 := by
        rw [hlen]; omega
      have hd3 : (xs ++ [t]).length - RESPONSE_WINDOW = 0 := by
        simp only [List.length_append, List.length_cons, List.length_nil]
        omega
      rw [hd, hd2, hd3]
      simp
    · push_neg at hn
      have h1 : (xs.drop (xs.length - RESPONSE_WINDOW)).length =
          RESPONSE_WINDOW := by
        rw [List.length_drop]; omega
      have h2 : (xs.drop (xs.length - RESPONSE_WINDOW) ++ [t]).length -
          RESPONSE_WINDOW = 1 := by
        simp only [List.length_append, List.length_cons, List.length_nil, h1]
        omega
      rw [h2, List.drop_append_of_le_length (by omega), List.drop_drop]
      have h3 : (xs ++ [t]).length - RESPONSE_WINDOW =
          (xs.length - RESPONSE_WINDOW) + 1 := by
        simp only [List.length_append, List.length_cons, List.length_nil]
        omega
      rw [h3, List.drop_append_of_le_length (by omega)]

/-! ### Derived accessor lemmas -/

theorem get_cache_hit_rate_spec (m : SystemMetrics) :
    (m.cache_hits + m.cache_misses = 0 → m.get_cache_hit_rate = 0) ∧
    (0 < m.cache_hits + m.cache_misses →
      m.get_cache_hit_rate =
        (m.cache_hits : ℚ) / ((m.cache_hits : ℚ) + (m.cache_misses : ℚ))) ∧
    0 ≤ m.get_cache_hit_rate ∧ m.get_cache_hit_rate ≤ 1 := by
  have hdef : m.get_cache_hit_rate =
      if 0 < m.cache_hits + m.cache_misses
      then (m.cache_hits : ℚ) / (((m.cache_hits + m.cache_misses : Nat)) : ℚ)
      else 0 := rfl
  by_cases h : 0 < m.cache_hits + m.cache_misses
  · rw [hdef, if_pos h]
    have hcast : (((m.cache_hits + m.cache_misses : Nat)) : ℚ) =
        (m.cache_hits : ℚ) + (m.cache_misses : ℚ) := by push_cast; ring
    refine ⟨fun h0 => absurd h0 (by omega), fun _ => by rw [hcast], ?_, ?_⟩
    · positivity
    · apply div_le_one_of_le₀
      · exact_mod_cast Nat.le_add_right m.cache_hits m.cache_misses
      · positivity
  · rw [hdef, if_neg h]
    exact ⟨fun _ => rfl, fun h0 => absurd h0 h, le_refl 0, zero_le_one⟩

theorem get_avg_response_time_spec (m : SystemMetrics) :
    (m.response_times = [] → m.get_avg_response_time = 0) ∧
    (m.response_times ≠ [] → m.get_avg_response_time =
      m.response_times.sum / (m.response_times.length : ℚ)) := by
  constructor
  · intro h
    simp [SystemMetrics.get_avg_response_time, h]
  · intro h
    simp [SystemMetrics.get_avg_response_time, h]

/-! ### Claim theorems -/

/-- C1 (counterexample): the claim states that constructing a cache with
capacity ≤ 0 fails, but `LRUCache.__init__` (main.py lines 119-122) performs
no validation: at capacity 0 it returns a cache instance that answers `size`
and `get` like any other (the `get` misses and records a cache miss on the
metrics). -/
theorem C1_counterexample :
    (LRUCache.mkCache Nat 0).capacity = 0 ∧
    (LRUCache.mkCache Nat 0).size = 0 ∧
    ((LRUCache.mkCache Nat 0).get SystemMetrics.start 7).1 = PyVal.vNone ∧
    ((LRUCache.mkCache Nat 0).get SystemMetrics.start 7).2.2.cache_misses = 1 :=
  ⟨rfl, rfl, rfl, rfl⟩

/-- C1 (amended): constructing a cache with non-positive capacity is NOT
rejected — the constructor stores the capacity unchecked and returns an
empty cache; however such a cache is unusable for storage: every `put` of a
fresh key raises `KeyError`, because `popitem(last=False)` is called on the
empty dict. -/
theorem C1_amended (cap : Int) (hcap : cap ≤ 0) (k : Nat) (v : PyVal) :
    (LRUCache.mkCache Nat cap).cache = [] ∧
    (LRUCache.mkCache Nat cap).size = 0 ∧
    (LRUCache.mkCache Nat cap).put k v =
      Except.error "KeyError: dictionary is empty" := by
  refine ⟨rfl, rfl, ?_⟩
  simp [LRUCache.mkCache, LRUCache.put, odLookup, hcap]

theorem C1_amended_witness :
    (-1 : Int) ≤ 0 ∧
    (LRUCache.mkCache Nat (-1)).put 3 (PyVal.vInt 9) =
      Except.error "KeyError: dictionary is empty" :=
  ⟨by norm_num, (C1_amended (-1) (by norm_num) 3 (PyVal.vInt 9)).2.2⟩

/-- C2: capacity invariant — starting from a cache built with positive
capacity, after any sequence of `put`/`get`/`delete` calls the number of
live entries reported by `size` never exceeds the capacity. -/
theorem C2_capacity_invariant {K : Type} [DecidableEq K] (cap : Int)
    (hcap : 1 ≤ cap) (ops : List (Op K)) (m0 : SystemMetrics) :
    ((runOps (LRUCache.mkCache K cap, m0) ops).1.size : Int) ≤ cap := by
  have h0 : (((LRUCache.mkCache K cap, m0).1.cache.length : Int)) ≤
      (LRUCache.mkCache K cap, m0).1.capacity := by
    simp only [LRUCache.mkCache, List.length_nil, Nat.cast_zero]
    omega
  exact (runOps_size_le ops (LRUCache.mkCache K cap, m0) h0).2

theorem C2_capacity_invariant_witness :
    (1 : Int) ≤ 2 ∧
    ((runOps (LRUCache.mkCache Nat 2, SystemMetrics.start)
        [Op.put 0 (PyVal.vInt 0), Op.put 1 (PyVal.vInt 1),
         Op.put 2 (PyVal.vInt 2), Op.get 1, Op.del 1]).1.size : Int) ≤ 2 :=
  ⟨by norm_num,
    C2_capacity_invariant 2 (by norm_num)
      [Op.put 0 (PyVal.vInt 0), Op.put 1 (PyVal.vInt 1),
       Op.put 2 (PyVal.vInt 2), Op.get 1, Op.del 1] SystemMetrics.start⟩

/-- C6: hit-rate definition and bounds — after any sequence of
`record_cache_hit`/`record_cache_miss` calls on the fresh aggregator,
`get_cache_hit_rate` is `hits / (hits + misses)` when at least one access
was recorded, `0` when none was, and always lies in `[0, 1]`. -/
theorem C6_hit_rate (es : List MEvent) :
    ((applyMEvents SystemMetrics.start es).cache_hits +
        (applyMEvents SystemMetrics.start es).cache_misses = 0 →
      (applyMEvents SystemMetrics.start es).get_cache_hit_rate = 0) ∧
    (0 < (applyMEvents SystemMetrics.start es).cache_hits +
        (applyMEvents SystemMetrics.start es).cache_misses →
      (applyMEvents SystemMetrics.start es).get_cache_hit_rate =
        ((applyMEvents SystemMetrics.start es).cache_hits : ℚ) /
          (((applyMEvents SystemMetrics.start es).cache_hits : ℚ) +
            ((applyMEvents SystemMetrics.start es).cache_misses : ℚ))) ∧
    0 ≤ (applyMEvents SystemMetrics.start es).get_cache_hit_rate ∧
    (applyMEvents SystemMetrics.start es).get_cache_hit_rate ≤ 1 :=
  get_cache_hit_rate_spec (applyMEvents SystemMetrics.start es)

theorem C6_hit_rate_witness :
    0 < (applyMEvents SystemMetrics.start [MEvent.hit, MEvent.miss]).cache_hits +
        (applyMEvents SystemMetrics.start [MEvent.hit, MEvent.miss]).cache_misses ∧
    (applyMEvents SystemMetrics.start [MEvent.hit, MEvent.miss]).get_cache_hit_rate =
      ((applyMEvents SystemMetrics.start [MEvent.hit, MEvent.miss]).cache_hits : ℚ) /
        (((applyMEvents SystemMetrics.start [MEvent.hit, MEvent.miss]).cache_hits : ℚ) +
          ((applyMEvents SystemMetrics.start [MEvent.hit, MEvent.miss]).cache_misses : ℚ)) :=
  ⟨by decide, (C6_hit_rate [MEvent.hit, MEvent.miss]).2.1 (by decide)⟩

/-- C7: response-time window — after any sequence of `record_request` calls
on the fresh aggregator, exactly the most recent `RESPONSE_WINDOW` (100)
samples are retained in order (older ones dropped), `get_avg_response_time`
is the arithmetic mean of that retained window (`0` when it is empty), and
`get_requests_per_minute` — the retained-sample count — never exceeds the
window capacity. -/
theorem C7_response_window (ts : List ℚ) :
    ((ts.foldl SystemMetrics.record_request SystemMetrics.start).response_times =
      ts.drop (ts.length - RESPONSE_WINDOW)) ∧
    (ts.foldl SystemMetrics.record_request SystemMetrics.start).get_requests_per_minute ≤
      RESPONSE_WINDOW ∧
    ((ts.foldl SystemMetrics.record_request SystemMetrics.start).response_times = [] →
      (ts.foldl SystemMetrics.record_request SystemMetrics.start).get_avg_response_time =
        0) ∧
    ((ts.foldl SystemMetrics.record_request SystemMetrics.start).response_times ≠ [] →
      (ts.foldl SystemMetrics.record_request SystemMetrics.start).get_avg_response_time =
        (ts.foldl SystemMetrics.record_request SystemMetrics.start).response_times.sum /
          (((ts.foldl SystemMetrics.record_request
              SystemMetrics.start).response_times.length : ℚ))) := by
  have hW : RESPONSE_WINDOW = 100 := rfl
  have h1 := foldl_record_request_times ts
  refine ⟨h1, ?_, (get_avg_response_time_spec _).1, (get_avg_response_time_spec _).2⟩
  show (ts.foldl SystemMetrics.record_request
      SystemMetrics.start).response_times.length ≤ RESPONSE_WINDOW
  rw [h1, List.length_drop]
  omega

theorem C7_response_window_witness :
    ([(1 : ℚ), 3].foldl SystemMetrics.record_request
        SystemMetrics.start).response_times ≠ [] ∧
    ([(1 : ℚ), 3].foldl SystemMetrics.record_request
        SystemMetrics.start).get_avg_response_time =
      ([(1 : ℚ), 3].foldl SystemMetrics.record_request
          SystemMetrics.start).response_times.sum /
        ((([(1 : ℚ), 3].foldl SystemMetrics.record_request
            SystemMetrics.start).response_times.length : ℚ)) :=
  ⟨by decide, (C7_response_window [(1 : ℚ), 3]).2.2.2 (by decide)⟩

/-- C3: eviction order — insert `N + 1` pairwise distinct keys (`ks` of
length `N`, then `klast`) into a fresh cache of capacity `N ≥ 1` with no
intervening `get`; afterwards the first key misses (`get` returns `None`)
and each of the remaining `N` keys is present with its stored value. -/
theorem C3_eviction_order {K : Type} [DecidableEq K] (N : Nat) (hN : 1 ≤ N)
    (ks : List K) (klast : K) (f : K → PyVal) (m0 : SystemMetrics)
    (hnd : (ks ++ [klast]).Nodup) (hlen : ks.length = N) :
    let s := runOps (LRUCache.mkCache K (N : Int), m0)
      ((ks ++ [klast]).map fun k => Op.put k (f k))
    (∀ k1, ks.head? = some k1 →
      odLookup s.1.cache k1 = none ∧ (s.1.get s.2 k1).1 = PyVal.vNone) ∧
    (∀ k ∈ ks.tail ++ [klast],
      odLookup s.1.cache k = some (f k) ∧ (s.1.get s.2 k).1 = f k) := by
  intro s
  have hnd1 : ks.Nodup := hnd.sublist (List.sublist_append_left ks [klast])
  have hdisj : ∀ a ∈ ks, a ≠ klast := by
    rw [List.nodup_append] at hnd
    intro a ha hak
    exact hnd.2.2 ha (by simp [hak])
  cases ks with
  | nil =>
    exfalso
    simp at hlen
    omega
  | cons k1 ks' =>
    have hfill := runOps_put_fresh f (k1 :: ks') [] (N : Int) m0 hnd1
      (fun k _ => rfl)
      (by simp only [List.length_nil, hlen]; omega)
    have hlook : odLookup ((k1, f k1) :: ks'.map fun k => (k, f k)) klast =
        none := by
      simpa using @odLookup_map_pair_of_not_mem K _ f (k1 :: ks') klast
        (fun hm => hdisj klast hm rfl)
    have hcond : (N : Int) ≤ (ks'.length : Int) + 1 := by
      have h := hlen
      simp only [List.length_cons] at h
      omega
    have hput : LRUCache.put
        { capacity := (N : Int), cache := (k1, f k1) :: ks'.map fun k => (k, f k) }
        klast (f klast) =
        Except.ok
          { capacity := (N : Int),
            cache := (ks'.map fun k => (k, f k)) ++ [(klast, f klast)] } := by
      simp [LRUCache.put, hlook, hcond]
    have hsval : s =
        ({ capacity := (N : Int),
           cache := (ks' ++ [klast]).map fun k => (k, f k) }, m0) := by
      show runOps (LRUCache.mkCache K (N : Int), m0)
        (((k1 :: ks') ++ [klast]).map fun k => Op.put k (f k)) = _
      rw [List.map_append, runOps_append,
        show (LRUCache.mkCache K (N : Int), m0) =
          (({ capacity := (N : Int), cache := [] } : LRUCache K), m0) from rfl,
        hfill]
      show runOp _ (Op.put klast (f klast)) = _
      simp [runOp, hput]
    refine ⟨?_, ?_⟩
    · intro a ha
      have hak1 : a = k1 := by
        simp only [List.head?_cons, Option.some.injEq] at ha
        exact ha.symm
      subst hak1
      have hnotmem : a ∉ ks' ++ [klast] := by
        intro hm
        rcases List.mem_append.mp hm with h | h
        · exact (List.nodup_cons.mp hnd1).1 h
        · exact hdisj a (List.mem_cons_self a ks') (by simpa using h)
      have hlook1 : odLookup s.1.cache a = none := by
        rw [hsval]
        exact odLookup_map_pair_of_not_mem f hnotmem
      exact ⟨hlook1, by simp [LRUCache.get, hlook1]⟩
    · intro k hk
      have hk' : k ∈ ks' ++ [klast] := by simpa using hk
      have hlookk : odLookup s.1.cache k = some (f k) := by
        rw [hsval]
        exact odLookup_map_pair_of_mem f hk'
      exact ⟨hlookk, by simp [LRUCache.get, hlookk]⟩

/-- C4: promotion on hit — fill a fresh cache of capacity `N ≥ 2` with the
distinct keys `k1, k2, …` (the list `k1 :: k2 :: rest` of length `N`), then
`get k1` (a hit, which promotes `k1`), then `put` a fresh key `knew`.
Afterwards `k1` is still present with its stored value, `k2` — now the
least-recently-used — has been evicted (its `get` misses), and `knew` is
present. -/
theorem C4_promotion_on_hit {K : Type} [DecidableEq K] (N : Nat) (_hN : 2 ≤ N)
    (k1 k2 : K) (rest : List K) (knew : K) (f : K → PyVal) (m0 : SystemMetrics)
    (hnd : ((k1 :: k2 :: rest) ++ [knew]).Nodup)
    (hlen : (k1 :: k2 :: rest).length = N) :
    let s := runOps (LRUCache.mkCache K (N : Int), m0)
      (((k1 :: k2 :: rest).map fun k => Op.put k (f k)) ++
        [Op.get k1, Op.put knew (f knew)])
    odLookup s.1.cache k1 = some (f k1) ∧
    (s.1.get s.2 k1).1 = f k1 ∧
    odLookup s.1.cache k2 = none ∧
    (s.1.get s.2 k2).1 = PyVal.vNone ∧
    odLookup s.1.cache knew = some (f knew) := by
  intro s
  have hnd' : (k1 :: k2 :: (rest ++ [knew])).Nodup := by simpa using hnd
  have hk1 := List.nodup_cons.mp hnd'
  have hk2 := List.nodup_cons.mp hk1.2
  have hknotrest : knew ∉ rest := by
    have h := hk2.2
    rw [List.nodup_append] at h
    exact fun hm => h.2.2 hm (by simp)
  have hk1ne2 : k1 ≠ k2 := fun h => hk1.1 (h ▸ List.mem_cons_self k2 _)
  have hk1nnew : k1 ≠ knew := fun h =>
    hk1.1 (List.mem_cons_of_mem _ (List.mem_append_right _ (by simp [h])))
  have hk2nrest : k2 ∉ rest := fun hm => hk2.1 (List.mem_append_left _ hm)
  have hk2nnew : k2 ≠ knew := fun h =>
    hk2.1 (List.mem_append_right _ (by simp [h]))
  have hndfill : (k1 :: k2 :: rest).Nodup :=
    hnd.sublist (List.sublist_append_left _ _)
  have hfill := runOps_put_fresh f (k1 :: k2 :: rest) [] (N : Int) m0 hndfill
    (fun k _ => rfl) (by simp only [List.length_nil, hlen]; omega)
  have hget : runOp
      (({ capacity := (N : Int), cache := (k1, f k1) :: (k2, f k2) :: rest.map fun k => (k, f k) } : LRUCache K), m0)
      (Op.get k1) =
      (({ capacity := (N : Int), cache := (k2, f k2) :: (rest.map (fun k => (k, f k)) ++ [(k1, f k1)]) } : LRUCache K),
        m0.record_cache_hit) := by
    simp [runOp, LRUCache.get, odLookup, odErase]
  have hne2 : knew ≠ k2 := fun h => hk2nnew h.symm
  have hne1 : knew ≠ k1 := fun h => hk1nnew h.symm
  have hlookp : odLookup
      ((k2, f k2) :: (rest.map (fun k => (k, f k)) ++ [(k1, f k1)])) knew =
      none := by
    simp only [odLookup, if_neg hne2]
    rw [odLookup_append_of_none _ (odLookup_map_pair_of_not_mem f hknotrest)]
    simp [odLookup, hne1]
  have hcond : (N : Int) ≤ (rest.length : Int) + 1 + 1 := by
    have h := hlen
    simp only [List.length_cons] at h
    omega
  have hput : LRUCache.put
      { capacity := (N : Int), cache := (k2, f k2) :: (rest.map (fun k => (k, f k)) ++ [(k1, f k1)]) }
      knew (f knew) =
      Except.ok { capacity := (N : Int), cache := (rest.map (fun k => (k, f k)) ++ [(k1, f k1)]) ++ [(knew, f knew)] } := by
    simp [LRUCache.put, hlookp, hcond]
  have hsval : s =
      (({ capacity := (N : Int), cache := ((rest ++ [k1]) ++ [knew]).map fun k => (k, f k) } : LRUCache K),
        m0.record_cache_hit) := by
    show runOps (LRUCache.mkCache K (N : Int), m0)
      (((k1 :: k2 :: rest).map fun k => Op.put k (f k)) ++
        [Op.get k1, Op.put knew (f knew)]) = _
    rw [runOps_append,
      show (LRUCache.mkCache K (N : Int), m0) =
        (({ capacity := (N : Int), cache := [] } : LRUCache K), m0) from rfl,
      hfill]
    rw [runOps_cons, runOps_cons]
    show runOp (runOp
      (({ capacity := (N : Int), cache := (k1, f k1) :: (k2, f k2) :: rest.map fun k => (k, f k) } : LRUCache K), m0)
      (Op.get k1)) (Op.put knew (f knew)) = _
    rw [hget]
    show runOp _ (Op.put knew (f knew)) = _
    simp [runOp, hput]
  have hmem1 : k1 ∈ (rest ++ [k1]) ++ [knew] := by simp
  have hmemnew : knew ∈ (rest ++ [k1]) ++ [knew] := by simp
  have hnotmem2 : k2 ∉ (rest ++ [k1]) ++ [knew] := by
    simp only [List.mem_append, List.mem_singleton, not_or]
    exact ⟨⟨hk2nrest, fun h => hk1ne2 h.symm⟩, hk2nnew⟩
  have l1 : odLookup s.1.cache k1 = some (f k1) := by
    rw [hsval]
    exact odLookup_map_pair_of_mem f hmem1
  have l2 : odLookup s.1.cache k2 = none := by
    rw [hsval]
    exact odLookup_map_pair_of_not_mem f hnotmem2
  have l3 : odLookup s.1.cache knew = some (f knew) := by
    rw [hsval]
    exact odLookup_map_pair_of_mem f hmemnew
  exact ⟨l1, by simp [LRUCache.get, l1], l2, by simp [LRUCache.get, l2], l3⟩

/-- C5: overwrite does not evict — in any cache with duplicate-free keys
that contains `k` (in particular a full one), `put k v2` succeeds and only
replaces `k`'s value and promotes it to the most-recently-used end: `k` now
maps to `v2` (and a subsequent `get` returns `v2`), every other key maps to
exactly what it mapped to before, and the entry count is unchanged. -/
theorem C5_overwrite_no_evict {K : Type} [DecidableEq K] (c : LRUCache K)
    (k : K) (v2 : PyVal) (m : SystemMetrics)
    (hnd : (c.cache.map Prod.fst).Nodup)
    (hmem : (odLookup c.cache k).isSome) :
    c.put k v2 =
      Except.ok { capacity := c.capacity, cache := odErase c.cache k ++ [(k, v2)] } ∧
    odLookup (odErase c.cache k ++ [(k, v2)]) k = some v2 ∧
    (odErase c.cache k ++ [(k, v2)]).getLast? = some (k, v2) ∧
    (∀ k', k' ≠ k →
      odLookup (odErase c.cache k ++ [(k, v2)]) k' = odLookup c.cache k') ∧
    (odErase c.cache k ++ [(k, v2)]).length = c.cache.length ∧
    (({ capacity := c.capacity, cache := odErase c.cache k ++ [(k, v2)] } : LRUCache K).get m k).1 = v2 := by
  have herased : odLookup (odErase c.cache k) k = none :=
    (odLookup_eq_none_iff _ _).mpr (not_mem_keys_odErase hnd)
  have hlook2 : odLookup (odErase c.cache k ++ [(k, v2)]) k = some v2 :=
    odLookup_concat_self v2 herased
  refine ⟨?_, hlook2, ?_, ?_, ?_, ?_⟩
  · simp [LRUCache.put, hmem]
  · simp
  · intro k' hk'
    rw [odLookup_concat_ne _ _ hk', odLookup_odErase_ne _ hk']
  · have := length_odErase_of_mem ((odLookup_isSome_iff _ _).mp hmem)
    simp only [List.length_append, List.length_cons, List.length_nil]
    omega
  · simp [LRUCache.get, hlook2]

/-- C8: hit/miss accounting — starting from fresh metrics, after any
operation sequence `cache_hits + cache_misses` equals the number of `get`
operations issued; a `get` of a present key returns the stored value and
records exactly one hit, a `get` of an absent key returns `None` and records
exactly one miss, and `put` / `delete` never touch the metrics. -/
theorem C8_hit_miss_accounting {K : Type} [DecidableEq K] (ops : List (Op K))
    (c0 : LRUCache K) :
    ((runOps (c0, SystemMetrics.start) ops).2.cache_hits +
      (runOps (c0, SystemMetrics.start) ops).2.cache_misses =
        (ops.filter Op.isGet).length) ∧
    (∀ (c : LRUCache K) (m : SystemMetrics) (k : K) (v : PyVal),
      odLookup c.cache k = some v →
        (c.get m k).1 = v ∧
        (c.get m k).2.2.cache_hits = m.cache_hits + 1 ∧
        (c.get m k).2.2.cache_misses = m.cache_misses) ∧
    (∀ (c : LRUCache K) (m : SystemMetrics) (k : K),
      odLookup c.cache k = none →
        (c.get m k).1 = PyVal.vNone ∧
        (c.get m k).2.2.cache_misses = m.cache_misses + 1 ∧
        (c.get m k).2.2.cache_hits = m.cache_hits) ∧
    (∀ (c : LRUCache K) (m : SystemMetrics) (k : K) (v : PyVal),
      (runOp (c, m) (Op.put k v)).2 = m) ∧
    (∀ (c : LRUCache K) (m : SystemMetrics) (k : K),
      (runOp (c, m) (Op.del k)).2 = m) := by
  refine ⟨?_, ?_, ?_, ?_, ?_⟩
  · have h := runOps_hit_miss_count ops (c0, SystemMetrics.start)
    simpa [SystemMetrics.start] using h
  · intro c m k v h
    refine ⟨?_, ?_, ?_⟩ <;>
      simp [LRUCache.get, h, SystemMetrics.record_cache_hit]
  · intro c m k h
    refine ⟨?_, ?_, ?_⟩ <;>
      simp [LRUCache.get, h, SystemMetrics.record_cache_miss]
  · intro c m k v
    cases hput : c.put k v <;> simp [runOp, hput]
  · intro c m k
    rfl

/-- Keys absent from an association list are untouched by a key filter. -/
theorem filter_ne_of_not_mem {K : Type} [DecidableEq K]
    {l : List (K × PyVal)} {k : K} (h : k ∉ l.map Prod.fst) :
    l.filter (fun p => decide (p.1 ≠ k)) = l := by
  rw [List.filter_eq_self]
  intro p hp
  simp only [decide_eq_true_eq]
  intro he
  exact h (he ▸ List.mem_map_of_mem Prod.fst hp)

/-- On a duplicate-free association list, removing key `k` is the same as
filtering out the (unique) entry with key `k` — so every other entry, with
its value and its relative position, is kept. -/
theorem odErase_eq_filter {K : Type} [DecidableEq K]
    {l : List (K × PyVal)} (k : K) (hnd : (l.map Prod.fst).Nodup) :
    odErase l k = l.filter (fun p => decide (p.1 ≠ k)) := by
  induction l with
  | nil => rfl
  | cons p rest ih =>
    obtain ⟨a, v⟩ := p
    simp only [List.map_cons, List.nodup_cons] at hnd
    by_cases hk : k = a
    · subst hk
      simp only [odErase, if_pos rfl, List.filter_cons]
      have hc : (decide ((k, v).1 ≠ k)) = false := by simp
      simp only [hc, Bool.false_eq_true, if_false]
      exact (filter_ne_of_not_mem hnd.1).symm
    · have hak : a ≠ k := fun h => hk h.symm
      simp only [odErase, if_neg hk, List.filter_cons]
      simp [hak, ih hnd.2]

/-- C9: delete semantics — on any cache with duplicate-free keys, the
invalidation `cache.pop(key, None)` removes exactly the entry for a present
key (all other entries keep their values and their relative recency order),
is a no-op for an absent key, and in either case leaves the metrics —
including the hit/miss counters — untouched. -/
theorem C9_delete_semantics {K : Type} [DecidableEq K] (c : LRUCache K)
    (k : K) (m : SystemMetrics) (hnd : (c.cache.map Prod.fst).Nodup) :
    ((odLookup c.cache k).isSome →
      (c.delete k).cache = c.cache.filter (fun p => decide (p.1 ≠ k)) ∧
      odLookup (c.delete k).cache k = none ∧
      (∀ k', k' ≠ k →
        odLookup (c.delete k).cache k' = odLookup c.cache k') ∧
      (c.delete k).size + 1 = c.size) ∧
    (odLookup c.cache k = none → c.delete k = c) ∧
    (runOp (c, m) (Op.del k)).2 = m := by
  refine ⟨?_, ?_, rfl⟩
  · intro hmem
    refine ⟨odErase_eq_filter k hnd, ?_, ?_, ?_⟩
    · exact (odLookup_eq_none_iff _ _).mpr (not_mem_keys_odErase hnd)
    · intro k' hk'
      exact odLookup_odErase_ne _ hk'
    · exact length_odErase_of_mem ((odLookup_isSome_iff _ _).mp hmem)
  · intro habsent
    show { capacity := c.capacity, cache := odErase c.cache k } = c
    rw [odErase_of_not_mem ((odLookup_eq_none_iff _ _).mp habsent)]

/-- C10: `get` returns a single optional value, not a `(value, found)` pair —
`None` on a miss and the stored value on a hit.  Hence a `get` of an absent
key and a `get` of a key whose stored value is `None` return the very same
result, and a caller that truth-tests the result (as `get_student` does with
`if cached_student:`) also treats any falsy stored value exactly like a
miss. -/
theorem C10_get_conflates_none {K : Type} [DecidableEq K] (c : LRUCache K)
    (m : SystemMetrics) (kmiss : K)
    (habsent : odLookup c.cache kmiss = none) :
    (c.get m kmiss).1 = PyVal.vNone ∧
    (∀ k, odLookup c.cache k = some PyVal.vNone →
      (c.get m k).1 = (c.get m kmiss).1) ∧
    (∀ k v, odLookup c.cache k = some v → v.truthy = false →
      getStudentServesFromCache c m k = getStudentServesFromCache c m kmiss ∧
      getStudentServesFromCache c m k = false) := by
  have hmiss : (c.get m kmiss).1 = PyVal.vNone := by
    simp [LRUCache.get, habsent]
  refine ⟨hmiss, ?_, ?_⟩
  · intro k h
    simp [LRUCache.get, h, habsent]
  · intro k v h hfalsy
    have hk : getStudentServesFromCache c m k = false := by
      simp [getStudentServesFromCache, LRUCache.get, h, hfalsy]
    have hm : getStudentServesFromCache c m kmiss = false := by
      simp [getStudentServesFromCache, LRUCache.get, habsent, PyVal.truthy]
    exact ⟨hk.trans hm.symm, hk⟩

theorem C3_eviction_order_witness :
    ([0, 1] ++ [2] : List Nat).Nodup ∧
    odLookup (runOps (LRUCache.mkCache Nat ((2 : Nat) : Int), SystemMetrics.start)
        (([0, 1] ++ [2] : List Nat).map fun k => Op.put k (PyVal.vInt (k : Int)))).1.cache 0 =
      none ∧
    odLookup (runOps (LRUCache.mkCache Nat ((2 : Nat) : Int), SystemMetrics.start)
        (([0, 1] ++ [2] : List Nat).map fun k => Op.put k (PyVal.vInt (k : Int)))).1.cache 2 =
      some (PyVal.vInt 2) :=
  ⟨by decide,
    ((C3_eviction_order (K := Nat) 2 (by norm_num) [0, 1] 2
        (fun k => PyVal.vInt (k : Int))
        SystemMetrics.start (by decide) (by decide)).1 0 rfl).1,
    ((C3_eviction_order (K := Nat) 2 (by norm_num) [0, 1] 2
        (fun k => PyVal.vInt (k : Int))
        SystemMetrics.start (by decide) (by decide)).2 2 (by decide)).1⟩

theorem C4_promotion_on_hit_witness :
    (([0, 1] ++ [5] : List Nat)).Nodup ∧
    odLookup (runOps (LRUCache.mkCache Nat ((2 : Nat) : Int), SystemMetrics.start)
        ((([0, 1] : List Nat).map fun (k : Nat) => Op.put k (PyVal.vInt (k : Int))) ++
          [Op.get 0, Op.put 5 (PyVal.vInt 5)])).1.cache 0 = some (PyVal.vInt 0) ∧
    odLookup (runOps (LRUCache.mkCache Nat ((2 : Nat) : Int), SystemMetrics.start)
        ((([0, 1] : List Nat).map fun (k : Nat) => Op.put k (PyVal.vInt (k : Int))) ++
          [Op.get 0, Op.put 5 (PyVal.vInt 5)])).1.cache 1 = none :=
  ⟨by decide,
    (C4_promotion_on_hit (K := Nat) 2 (by norm_num) 0 1 [] 5
        (fun k => PyVal.vInt (k : Int))
        SystemMetrics.start (by decide) (by decide)).1,
    (C4_promotion_on_hit (K := Nat) 2 (by norm_num) 0 1 [] 5
        (fun k => PyVal.vInt (k : Int))
        SystemMetrics.start (by decide) (by decide)).2.2.1⟩

theorem C5_overwrite_no_evict_witness :
    (odLookup ([(0, PyVal.vInt 1), (1, PyVal.vInt 5)] : List (Nat × PyVal)) 0).isSome = true ∧
    (({ capacity := 2, cache := odErase ([(0, PyVal.vInt 1), (1, PyVal.vInt 5)] : List (Nat × PyVal)) 0 ++ [(0, PyVal.vInt 7)] } : LRUCache Nat).get
        SystemMetrics.start 0).1 = PyVal.vInt 7 :=
  ⟨rfl,
    (C5_overwrite_no_evict
        { capacity := 2, cache := [(0, PyVal.vInt 1), (1, PyVal.vInt 5)] } 0
        (PyVal.vInt 7) SystemMetrics.start (by decide) (by decide)).2.2.2.2.2⟩

theorem C8_hit_miss_accounting_witness :
    odLookup (({ capacity := 2, cache := [(0, PyVal.vInt 3)] } : LRUCache Nat)).cache 0 =
      some (PyVal.vInt 3) ∧
    ((({ capacity := 2, cache := [(0, PyVal.vInt 3)] } : LRUCache Nat)).get
        SystemMetrics.start 0).1 = PyVal.vInt 3 ∧
    ((({ capacity := 2, cache := [(0, PyVal.vInt 3)] } : LRUCache Nat)).get
        SystemMetrics.start 0).2.2.cache_hits = SystemMetrics.start.cache_hits + 1 ∧
    ((({ capacity := 2, cache := [(0, PyVal.vInt 3)] } : LRUCache Nat)).get
        SystemMetrics.start 0).2.2.cache_misses = SystemMetrics.start.cache_misses :=
  ⟨rfl,
    (C8_hit_miss_accounting ([] : List (Op Nat)) (LRUCache.mkCache Nat 1)).2.1
      { capacity := 2, cache := [(0, PyVal.vInt 3)] } SystemMetrics.start 0
      (PyVal.vInt 3) rfl⟩

theorem C9_delete_semantics_witness :
    (odLookup ([(0, PyVal.vInt 1), (1, PyVal.vInt 5)] : List (Nat × PyVal)) 0).isSome = true ∧
    (({ capacity := 2, cache := [(0, PyVal.vInt 1), (1, PyVal.vInt 5)] } : LRUCache Nat).delete 0).cache =
      ([(0, PyVal.vInt 1), (1, PyVal.vInt 5)] : List (Nat × PyVal)).filter
        (fun p => decide (p.1 ≠ 0)) :=
  ⟨rfl,
    ((C9_delete_semantics
        { capacity := 2, cache := [(0, PyVal.vInt 1), (1, PyVal.vInt 5)] } 0
        SystemMetrics.start (by decide)).1 rfl).1⟩

theorem C10_get_conflates_none_witness :
    odLookup ([(0, PyVal.vNone), (1, PyVal.vInt 0)] : List (Nat × PyVal)) 9 = none ∧
    ((({ capacity := 3, cache := [(0, PyVal.vNone), (1, PyVal.vInt 0)] } : LRUCache Nat)).get
        SystemMetrics.start 0).1 =
      ((({ capacity := 3, cache := [(0, PyVal.vNone), (1, PyVal.vInt 0)] } : LRUCache Nat)).get
        SystemMetrics.start 9).1 ∧
    getStudentServesFromCache
      ({ capacity := 3, cache := [(0, PyVal.vNone), (1, PyVal.vInt 0)] } : LRUCache Nat)
      SystemMetrics.start 1 = false :=
  ⟨rfl,
    (C10_get_conflates_none
        { capacity := 3, cache := [(0, PyVal.vNone), (1, PyVal.vInt 0)] }
        SystemMetrics.start 9 rfl).2.1 0 rfl,
    ((C10_get_conflates_none
        { capacity := 3, cache := [(0, PyVal.vNone), (1, PyVal.vInt 0)] }
        SystemMetrics.start 9 rfl).2.2 1 (PyVal.vInt 0) rfl rfl).2⟩

end GradeAnalytics
